import Mathlib

/-!
Verification of the OpenMS phaseless AFQMC walker-propagation core.

Shallow embedding of the walker-population propagation and population-control
engine of `openms/qmc/qmc.py` and `openms/qmc/afqmc.py`, together with proofs
of the stated properties of the estimator accumulator (`property_stack`),
the re-orthogonalization step (`orthogonalization` / `qr_ortho`), the Trotter
propagation (`AFQMC.propagation`), the driver loop (`QMCbase.kernel`), and the
Cholesky truncation in `get_integrals`.

Machine floating-point (complex128) arithmetic is modelled by exact
arithmetic: complex numbers with rational components (`CC`) where the code
only uses field operations, and Mathlib's `ℝ`/`ℂ` where the code applies
transcendental functions (`exp`, `log`) or QR factorizations.
-/

/-! ## Exact complex arithmetic (model of numpy complex128 where only
field operations occur) -/

/-- A complex number with rational real and imaginary parts.  Models the
`complex128` scalars flowing through the estimator accumulator. -/
structure CC where
  re : ℚ
  im : ℚ
deriving DecidableEq

def CC.zero : CC := ⟨0, 0⟩

def CC.add (z w : CC) : CC := ⟨z.re + w.re, z.im + w.im⟩

def CC.mul (z w : CC) : CC := ⟨z.re * w.re - z.im * w.im, z.re * w.im + z.im * w.re⟩

/-- Complex division `z / w` (like IEEE, the code performs it unguarded; in
this exact model a zero divisor yields `⟨0/0, 0/0⟩ = 0` by the rational
division-by-zero convention, where numpy would produce `nan`/`inf`). -/
def CC.div (z w : CC) : CC :=
  let d : ℚ := w.re * w.re + w.im * w.im
  ⟨(z.re * w.re + z.im * w.im) / d, (z.im * w.re - z.re * w.im) / d⟩

def CC.ofNat (n : ℕ) : CC := ⟨(n : ℚ), 0⟩

def CC.sum (l : List CC) : CC := l.foldr CC.add CC.zero

/-! ## Estimator accumulator: `QMCbase.property_stack`
(src/openms/qmc/qmc.py, lines 862-923) -/

/-- The list `self.stacked_variables` as set in `QMCbase.__init__`. -/
def stacked_variables : List String := ["weights", "unscaled_weights",
  "walker_hybrid_energies", "walker_local_energies"]

/-- Does `pat` occur as a leading block of `s`? (structural helper for the
substring test). -/
def leadsWith : List Char → List Char → Bool
  | [], _ => true
  | _ :: _, [] => false
  | a :: as, b :: bs => a == b && leadsWith as bs

/-- Does `pat` occur as a contiguous sublist of `s`? -/
def hasSub : List Char → List Char → Bool
  | pat, [] => leadsWith pat []
  | pat, b :: bs => leadsWith pat (b :: bs) || hasSub pat bs

/-- Python's `pat in name` substring test on strings. -/
def occursIn (pat s : String) : Bool := hasSub pat.toList s.toList

/-- Name of the `i`-th stacked variable. -/
def varName (i : Fin 4) : String := stacked_variables.getD i.val ""

/-- Source `self.stacked_variables.index("weights")` (the index whose buffer entry
is used as the normalization weight). -/
def widx : Fin 4 := ⟨stacked_variables.indexOf "weights", by decide⟩

/-- Index of the unscaled-weight accumulator. -/
def uidx : Fin 4 := ⟨stacked_variables.indexOf "unscaled_weights", by decide⟩

/-- Source `self.stacked_variables.index("walker_hybrid_energies")`. -/
def hidx : Fin 4 := ⟨stacked_variables.indexOf "walker_hybrid_energies", by decide⟩

/-- Index of the local-energy accumulator. -/
def lidx : Fin 4 := ⟨stacked_variables.indexOf "walker_local_energies", by decide⟩

/-- State owned by the estimator accumulator: the running complex buffer
`self.property_buffer` (one entry per stacked variable) and the process-wide
energy shift `self.eshift`. -/
structure EstState where
  buffer : Fin 4 → CC
  eshift : CC

/-- Per-walker observables read by `property_stack`: the walker's weight,
unscaled weight, hybrid energy and local energy. -/
structure WalkerObs where
  weight : CC
  weight_org : CC
  ehybrid : CC
  eloc : CC

/-- The `_data_dict` of `property_stack`: ensemble-summed
(weight, unscaled weight, weight×hybrid-energy, weight×local-energy). -/
def dataDict (w : List WalkerObs) : Fin 4 → CC :=
  ![CC.sum (w.map (·.weight)),
    CC.sum (w.map (·.weight_org)),
    CC.sum (w.map (fun x => CC.mul x.ehybrid x.weight)),
    CC.sum (w.map (fun x => CC.mul x.eloc x.weight))]

/-- The update `self.property_buffer += backend.array(tmp)`. -/
def accumulate (st : EstState) (w : List WalkerObs) : Fin 4 → CC :=
  fun i => (st.buffer i).add (dataDict w i)

/-- First normalization loop of the periodic reduction: each entry whose name
contains `"energies"` is divided by `norm`, the (pre-division) accumulated
weight entry. -/
def normalizeEnergies (buf : Fin 4 → CC) : Fin 4 → CC :=
  let norm := buf widx
  fun i => if occursIn "energies" (varName i) then (buf i).div norm else buf i

/-- Second normalization loop: each entry whose name contains `"weights"` is
divided by the window length `property_calc_freq`. -/
def normalizeWeights (freq : ℕ) (buf : Fin 4 → CC) : Fin 4 → CC :=
  fun i => if occursIn "weights" (varName i) then (buf i).div (CC.ofNat freq) else buf i

/-- The periodic reduction block of `property_stack`: normalize energies by
the accumulated weight, normalize weights by the window length, read the new
`eshift` from the normalized hybrid-energy entry, reset the buffer to zero.
Returns (new buffer, new eshift). -/
def propertyReduce (freq : ℕ) (buf : Fin 4 → CC) : (Fin 4 → CC) × CC :=
  let b := normalizeWeights freq (normalizeEnergies buf)
  (fun _ => CC.zero, b hidx)

/-- Translation of `QMCbase.property_stack(walkers, step)`: early return on negative step,
otherwise accumulate the ensemble sums and, on a `property_calc_freq`
boundary, perform the periodic reduction. -/
def property_stack (freq : ℕ) (st : EstState) (w : List WalkerObs) (step : ℤ) : EstState :=
  if step < 0 then st
  else
    let buf := accumulate st w
    if (step + 1) % (freq : ℤ) = 0 then
      let r := propertyReduce freq buf
      ⟨r.1, r.2⟩
    else
      ⟨buf, st.eshift⟩

/-- Iterating `property_stack` over a window of consecutive steps, one walker
ensemble snapshot per step. -/
def stackWindow (freq : ℕ) : EstState → List (List WalkerObs) → ℤ → EstState
  | st, [], _ => st
  | st, w :: ws, s => stackWindow freq (property_stack freq st w s) ws (s + 1)

/-! ### Helper lemmas about the stacked-variable indices and name tests -/

lemma widx_val : widx = 0 := by decide

lemma uidx_val : uidx = 1 := by decide

lemma hidx_val : hidx = 2 := by decide

lemma lidx_val : lidx = 3 := by decide

lemma occursIn_energies_hidx : occursIn "energies" (varName hidx) = true := by decide

lemma occursIn_energies_lidx : occursIn "energies" (varName lidx) = true := by decide

lemma occursIn_energies_widx : occursIn "energies" (varName widx) = false := by decide

lemma occursIn_energies_uidx : occursIn "energies" (varName uidx) = false := by decide

lemma occursIn_weights_hidx : occursIn "weights" (varName hidx) = false := by decide

lemma occursIn_weights_widx : occursIn "weights" (varName widx) = true := by decide

lemma occursIn_weights_uidx : occursIn "weights" (varName uidx) = true := by decide

/-- On a `property_calc_freq` boundary with a non-negative step,
`property_stack` resets the buffer and sets `eshift` to the accumulated
hybrid energy divided by the accumulated weight. -/
lemma property_stack_boundary (freq : ℕ) (st : EstState) (w : List WalkerObs)
    (step : ℤ) (h0 : 0 ≤ step) (hb : (step + 1) % (freq : ℤ) = 0) :
    property_stack freq st w step =
      ⟨fun _ => CC.zero,
       CC.div (accumulate st w hidx) (accumulate st w widx)⟩ := by
  unfold property_stack
  rw [if_neg (not_lt.mpr h0), if_pos hb]
  unfold propertyReduce normalizeWeights normalizeEnergies
  simp only [occursIn_weights_hidx, occursIn_energies_hidx, if_true, if_false,
    Bool.false_eq_true, ite_true, ite_false]

/-- C1: In `property_stack`, on every step whose `(step+1)` is a multiple of
`property_calc_freq`, the periodic reduction (1) divides each energy
accumulator (hybrid and local) by the accumulated weight of the window,
(2) divides each weight accumulator by the window length
`property_calc_freq`, (3) sets the process-wide `eshift` to the normalized
hybrid-energy estimate, and (4) resets every accumulator entry to zero. -/
theorem property_stack_periodic_reduction (freq : ℕ) (st : EstState)
    (w : List WalkerObs) (step : ℤ) (h0 : 0 ≤ step)
    (hb : (step + 1) % (freq : ℤ) = 0) :
    property_stack freq st w step =
      ⟨fun _ => CC.zero,
       CC.div (accumulate st w hidx) (accumulate st w widx)⟩
    ∧ normalizeEnergies (accumulate st w) hidx
        = CC.div (accumulate st w hidx) (accumulate st w widx)
    ∧ normalizeEnergies (accumulate st w) lidx
        = CC.div (accumulate st w lidx) (accumulate st w widx)
    ∧ normalizeWeights freq (normalizeEnergies (accumulate st w)) widx
        = CC.div (accumulate st w widx) (CC.ofNat freq)
    ∧ normalizeWeights freq (normalizeEnergies (accumulate st w)) uidx
        = CC.div (accumulate st w uidx) (CC.ofNat freq) := by
  refine ⟨property_stack_boundary freq st w step h0 hb, ?_, ?_, ?_, ?_⟩
  · unfold normalizeEnergies
    simp only [occursIn_energies_hidx, ite_true]
  · unfold normalizeEnergies
    simp only [occursIn_energies_lidx, ite_true]
  · unfold normalizeWeights normalizeEnergies
    simp only [occursIn_weights_widx, occursIn_energies_widx, ite_true,
      Bool.false_eq_true, ite_false]
  · unfold normalizeWeights normalizeEnergies
    simp only [occursIn_weights_uidx, occursIn_energies_uidx, ite_true,
      Bool.false_eq_true, ite_false]

/-- Zero estimator state (fresh accumulation window). -/
def estState0 : EstState := ⟨fun _ => CC.zero, CC.zero⟩

/-- A one-walker ensemble snapshot with nonzero weight and energies. -/
def wobs0 : List WalkerObs := [⟨⟨1, 0⟩, ⟨1, 0⟩, ⟨3, 0⟩, ⟨4, 0⟩⟩]

/-- Witness for C1 at a concrete boundary step. -/
theorem property_stack_periodic_reduction_witness :
    property_stack 2 estState0 wobs0 1 =
      ⟨fun _ => CC.zero,
       CC.div (accumulate estState0 wobs0 hidx) (accumulate estState0 wobs0 widx)⟩
    ∧ normalizeEnergies (accumulate estState0 wobs0) hidx
        = CC.div (accumulate estState0 wobs0 hidx) (accumulate estState0 wobs0 widx)
    ∧ normalizeEnergies (accumulate estState0 wobs0) lidx
        = CC.div (accumulate estState0 wobs0 lidx) (accumulate estState0 wobs0 widx)
    ∧ normalizeWeights 2 (normalizeEnergies (accumulate estState0 wobs0)) widx
        = CC.div (accumulate estState0 wobs0 widx) (CC.ofNat 2)
    ∧ normalizeWeights 2 (normalizeEnergies (accumulate estState0 wobs0)) uidx
        = CC.div (accumulate estState0 wobs0 uidx) (CC.ofNat 2) :=
  property_stack_periodic_reduction 2 estState0 wobs0 1 (by decide) (by decide)

/-- C9: calling `property_stack` with a negative step (the initialization
call `property_stack(walkers, -1)`) is a no-op on observable state: the
property buffer and `eshift` are left exactly as they were. -/
theorem property_stack_negative_step_noop (freq : ℕ) (st : EstState)
    (w : List WalkerObs) (step : ℤ) (h : step < 0) :
    property_stack freq st w step = st := by
  unfold property_stack
  rw [if_pos h]

/-- Witness for C9 at the initialization call `property_stack(walkers, -1)`. -/
theorem property_stack_negative_step_noop_witness :
    property_stack 10 estState0 wobs0 (-1) = estState0 :=
  property_stack_negative_step_noop 10 estState0 wobs0 (-1) (by decide)

/-! ### C10: unguarded division by the accumulated weight -/

/-- Every walker in the ensemble snapshot carries zero weight. -/
def allWeightsZero (w : List WalkerObs) : Prop := ∀ x ∈ w, x.weight = CC.zero

/-- The weight, hybrid-energy, and local-energy accumulator entries are zero. -/
def zeroWHL (st : EstState) : Prop :=
  st.buffer widx = CC.zero ∧ st.buffer hidx = CC.zero ∧ st.buffer lidx = CC.zero

lemma CC.add_zero_left (z : CC) : CC.add CC.zero z = z := by
  cases z; simp [CC.add, CC.zero]

lemma CC.mul_zero_right (z : CC) : CC.mul z CC.zero = CC.zero := by
  cases z; simp [CC.mul, CC.zero]

lemma sum_weights_zero (w : List WalkerObs) (h : allWeightsZero w) :
    CC.sum (w.map (·.weight)) = CC.zero := by
  induction w with
  | nil => rfl
  | cons x xs ih =>
      have hx : x.weight = CC.zero := h x (List.mem_cons_self x xs)
      have hxs : allWeightsZero xs := fun y hy => h y (List.mem_cons_of_mem x hy)
      simp only [List.map_cons, CC.sum, List.foldr_cons, hx]
      rw [CC.add_zero_left]
      exact ih hxs

lemma sum_energy_weights_zero (f : WalkerObs → CC) (w : List WalkerObs)
    (h : allWeightsZero w) :
    CC.sum (w.map (fun x => CC.mul (f x) x.weight)) = CC.zero := by
  induction w with
  | nil => rfl
  | cons x xs ih =>
      have hx : x.weight = CC.zero := h x (List.mem_cons_self x xs)
      have hxs : allWeightsZero xs := fun y hy => h y (List.mem_cons_of_mem x hy)
      simp only [List.map_cons, CC.sum, List.foldr_cons, hx, CC.mul_zero_right]
      rw [CC.add_zero_left]
      exact ih hxs

lemma accumulate_zeroWHL (st : EstState) (w : List WalkerObs)
    (hz : allWeightsZero w) (hst : zeroWHL st) :
    accumulate st w widx = CC.zero ∧ accumulate st w hidx = CC.zero
      ∧ accumulate st w lidx = CC.zero := by
  obtain ⟨h1, h2, h3⟩ := hst
  refine ⟨?_, ?_, ?_⟩
  · rw [accumulate, h1, widx_val]
    show CC.add CC.zero (CC.sum (w.map (·.weight))) = CC.zero
    rw [CC.add_zero_left]
    exact sum_weights_zero w hz
  · rw [accumulate, h2, hidx_val]
    show CC.add CC.zero (CC.sum (w.map (fun x => CC.mul x.ehybrid x.weight))) = CC.zero
    rw [CC.add_zero_left]
    exact sum_energy_weights_zero (·.ehybrid) w hz
  · rw [accumulate, h3, lidx_val]
    show CC.add CC.zero (CC.sum (w.map (fun x => CC.mul x.eloc x.weight))) = CC.zero
    rw [CC.add_zero_left]
    exact sum_energy_weights_zero (·.eloc) w hz

lemma property_stack_preserves_zeroWHL (freq : ℕ) (st : EstState)
    (w : List WalkerObs) (step : ℤ) (hz : allWeightsZero w) (hst : zeroWHL st) :
    zeroWHL (property_stack freq st w step) := by
  obtain ⟨a1, a2, a3⟩ := accumulate_zeroWHL st w hz hst
  unfold property_stack
  by_cases hneg : step < 0
  · rw [if_pos hneg]; exact hst
  · rw [if_neg hneg]
    by_cases hb : (step + 1) % (freq : ℤ) = 0
    · rw [if_pos hb]
      exact ⟨rfl, rfl, rfl⟩
    · rw [if_neg hb]
      exact ⟨a1, a2, a3⟩

lemma stackWindow_preserves_zeroWHL (freq : ℕ) (ws : List (List WalkerObs)) :
    ∀ (st : EstState) (s : ℤ), (∀ w ∈ ws, allWeightsZero w) → zeroWHL st →
      zeroWHL (stackWindow freq st ws s) := by
  induction ws with
  | nil => intro st s _ hst; exact hst
  | cons w rest ih =>
      intro st s hz hst
      have hw : allWeightsZero w := hz w (List.mem_cons_self w rest)
      have hrest : ∀ v ∈ rest, allWeightsZero v :=
        fun v hv => hz v (List.mem_cons_of_mem w hv)
      exact ih (property_stack freq st w s) (s + 1) hrest
        (property_stack_preserves_zeroWHL freq st w s hw hst)

lemma stackWindow_append (freq : ℕ) (ws : List (List WalkerObs))
    (wl : List WalkerObs) :
    ∀ (st : EstState) (s : ℤ), stackWindow freq st (ws ++ [wl]) s =
      property_stack freq (stackWindow freq st ws s) wl (s + ws.length) := by
  induction ws with
  | nil => intro st s; simp [stackWindow]
  | cons w rest ih =>
      intro st s
      show stackWindow freq (property_stack freq st w s) (rest ++ [wl]) (s + 1) = _
      rw [ih (property_stack freq st w s) (s + 1)]
      congr 1
      simp only [List.length_cons]
      push_cast
      ring

/-- C10: the periodic reduction divides the energy accumulators by the
accumulated window weight with no guard against zero: over a window in which
every walker's weight is zero, the accumulated weight used as the divisor is
zero, and the reduction still performs the division with that zero divisor
(in the exact model the rational convention maps it to zero; in IEEE
arithmetic it is a division by zero). -/
theorem property_stack_zero_weight_division (freq : ℕ) (st : EstState)
    (ws : List (List WalkerObs)) (wlast : List WalkerObs) (s0 : ℤ)
    (hlen : ws.length + 1 = freq)
    (hz : ∀ w ∈ ws, allWeightsZero w) (hzl : allWeightsZero wlast)
    (hst : zeroWHL st) (hs0 : 0 ≤ s0) (hmod : s0 % (freq : ℤ) = 0) :
    accumulate (stackWindow freq st ws s0) wlast widx = CC.zero
    ∧ stackWindow freq st (ws ++ [wlast]) s0 =
        ⟨fun _ => CC.zero,
         CC.div (accumulate (stackWindow freq st ws s0) wlast hidx)
                (accumulate (stackWindow freq st ws s0) wlast widx)⟩ := by
  have hinv : zeroWHL (stackWindow freq st ws s0) :=
    stackWindow_preserves_zeroWHL freq ws st s0 hz hst
  obtain ⟨a1, _, _⟩ := accumulate_zeroWHL (stackWindow freq st ws s0) wlast hzl hinv
  refine ⟨a1, ?_⟩
  rw [stackWindow_append freq ws wlast st s0]
  apply property_stack_boundary
  · omega
  · have hstep : s0 + (ws.length : ℤ) + 1 = s0 + (freq : ℤ) * 1 := by
      push_cast [← hlen]
      ring
    rw [hstep, Int.add_mul_emod_self_left, hmod]

/-- An all-dead (zero-weight) one-walker ensemble snapshot. -/
def wobsDead : List WalkerObs := [⟨CC.zero, ⟨1, 0⟩, ⟨5, 0⟩, ⟨7, 0⟩⟩]

/-- Witness for C10 on a concrete one-step window of dead walkers. -/
theorem property_stack_zero_weight_division_witness :
    accumulate (stackWindow 1 estState0 [] 0) wobsDead widx = CC.zero
    ∧ stackWindow 1 estState0 ([] ++ [wobsDead]) 0 =
        ⟨fun _ => CC.zero,
         CC.div (accumulate (stackWindow 1 estState0 [] 0) wobsDead hidx)
                (accumulate (stackWindow 1 estState0 [] 0) wobsDead widx)⟩ :=
  property_stack_zero_weight_division 1 estState0 [] wobsDead 0 (by decide)
    (by simp)
    (by intro x hx; simp only [wobsDead, List.mem_singleton] at hx; subst hx; rfl)
    (by exact ⟨rfl, rfl, rfl⟩) (by decide) (by decide)

/-! ## Re-orthogonalization: `qr_ortho` and `QMCbase.orthogonalization`
(src/openms/qmc/qmc.py, lines 68-79 and 734-778)

The external `backend.linalg.qr` call is modelled by a parameter `qr`
returning a (Q, R) pair; its documented contract (`QRfact`) is that the
input factors as Q·R with Q having orthonormal columns and R upper
triangular.  `qr_ortho` itself (the source function) keeps Q and the sum of
the logs of the magnitudes of R's diagonal.  The log-determinant bookkeeping
is real-valued in exact arithmetic (the code stores it in complex128 arrays,
but the values are `exp`/`log` of real magnitudes), so it is carried in `ℝ`;
coefficient matrices and overlaps are complex. -/

open scoped Matrix

/-- The contract of `backend.linalg.qr` on input `A` for a returned pair
`(Q, R)`: `A = Q·R`, the columns of `Q` are orthonormal, and `R` is upper
triangular.  (numpy does not fix the signs of `R`'s diagonal.) -/
def QRfact {m k : ℕ} (A : Matrix (Fin m) (Fin k) ℂ)
    (qrres : Matrix (Fin m) (Fin k) ℂ × Matrix (Fin k) (Fin k) ℂ) : Prop :=
  A = qrres.1 * qrres.2 ∧ qrres.1ᴴ * qrres.1 = 1
    ∧ ∀ i j : Fin k, (j : ℕ) < (i : ℕ) → qrres.2 i j = 0

/-- Translation of `qr_ortho(phiw)`: QR-factor the walker coefficient matrix, return the Q
factor and `log_det = Σ_i log |R_ii|`. -/
noncomputable def qr_ortho {m k : ℕ}
    (qr : Matrix (Fin m) (Fin k) ℂ → Matrix (Fin m) (Fin k) ℂ × Matrix (Fin k) (Fin k) ℂ)
    (phiw : Matrix (Fin m) (Fin k) ℂ) : Matrix (Fin m) (Fin k) ℂ × ℝ :=
  ((qr phiw).1, ∑ i, Real.log (Complex.abs ((qr phiw).2 i i)))

/-- The ensemble state touched by `orthogonalization`: per-walker fermionic
coefficient matrices (`phiwa`, and `phiwb` present exactly when
`ncomponents > 1`), complex weights, overlaps with the trial state, and the
log-determinant bookkeeping (`log_detR`, `detR`, `detR_shift`).  Bare
electronic ensembles (`boson_phiw is None`, for which the bosonic branch of
the source is a no-op) are modelled. -/
structure WalkerSet (nw m ka kb : ℕ) where
  phiwa : Fin nw → Matrix (Fin m) (Fin ka) ℂ
  phiwb : Option (Fin nw → Matrix (Fin m) (Fin kb) ℂ)
  weights : Fin nw → ℂ
  ovlp : Fin nw → ℂ
  log_detR : Fin nw → ℝ
  detR : Fin nw → ℝ
  detR_shift : Fin nw → ℝ

/-- Translation of `QMCbase.orthogonalization()`: per walker, replace each coefficient
matrix by its Q factor, form `detR = exp(log_det - detR_shift)`, add
`log(detR)` to the cumulative tracker, record `detR`, and divide the stored
overlap by `detR`.  Weights are not touched. -/
noncomputable def orthogonalization {nw m ka kb : ℕ}
    (qrA : Matrix (Fin m) (Fin ka) ℂ → Matrix (Fin m) (Fin ka) ℂ × Matrix (Fin ka) (Fin ka) ℂ)
    (qrB : Matrix (Fin m) (Fin kb) ℂ → Matrix (Fin m) (Fin kb) ℂ × Matrix (Fin kb) (Fin kb) ℂ)
    (w : WalkerSet nw m ka kb) : WalkerSet nw m ka kb :=
  match w.phiwb with
  | none =>
      let res := fun iw => qr_ortho qrA (w.phiwa iw)
      let detR := fun iw => Real.exp ((res iw).2 - w.detR_shift iw)
      { phiwa := fun iw => (res iw).1
        phiwb := none
        weights := w.weights
        ovlp := fun iw => w.ovlp iw / ((detR iw : ℝ) : ℂ)
        log_detR := fun iw => w.log_detR iw + Real.log (detR iw)
        detR := detR
        detR_shift := w.detR_shift }
  | some phib =>
      let resA := fun iw => qr_ortho qrA (w.phiwa iw)
      let resB := fun iw => qr_ortho qrB (phib iw)
      let detR := fun iw => Real.exp ((resA iw).2 + (resB iw).2 - w.detR_shift iw)
      { phiwa := fun iw => (resA iw).1
        phiwb := some (fun iw => (resB iw).1)
        weights := w.weights
        ovlp := fun iw => w.ovlp iw / ((detR iw : ℝ) : ℂ)
        log_detR := fun iw => w.log_detR iw + Real.log (detR iw)
        detR := detR
        detR_shift := w.detR_shift }

/-- The total `log_det` accumulated for walker `iw` during one
`orthogonalization` call: the sum of the logs of the magnitudes of the
R-factor diagonal entries over the spin components present. -/
noncomputable def walkerLogDet {nw m ka kb : ℕ}
    (qrA : Matrix (Fin m) (Fin ka) ℂ → Matrix (Fin m) (Fin ka) ℂ × Matrix (Fin ka) (Fin ka) ℂ)
    (qrB : Matrix (Fin m) (Fin kb) ℂ → Matrix (Fin m) (Fin kb) ℂ × Matrix (Fin kb) (Fin kb) ℂ)
    (w : WalkerSet nw m ka kb) (iw : Fin nw) : ℝ :=
  (qr_ortho qrA (w.phiwa iw)).2 +
    (match w.phiwb with
     | none => 0
     | some phib => (qr_ortho qrB (phib iw)).2)

/-- C2: for every walker ensemble, immediately after `orthogonalization()`,
every walker's fermionic coefficient matrix (`phiwa`, and `phiwb` when two
spin components are present) has orthonormal columns — it is the Q factor of
a QR decomposition (exactly, in exact arithmetic; hence within the 1e-10
tolerance). -/
theorem orthogonalization_orthonormal_columns {nw m ka kb : ℕ}
    (qrA : Matrix (Fin m) (Fin ka) ℂ → Matrix (Fin m) (Fin ka) ℂ × Matrix (Fin ka) (Fin ka) ℂ)
    (qrB : Matrix (Fin m) (Fin kb) ℂ → Matrix (Fin m) (Fin kb) ℂ × Matrix (Fin kb) (Fin kb) ℂ)
    (w : WalkerSet nw m ka kb)
    (hA : ∀ iw, QRfact (w.phiwa iw) (qrA (w.phiwa iw)))
    (hB : ∀ phib, w.phiwb = some phib → ∀ iw, QRfact (phib iw) (qrB (phib iw))) :
    (∀ iw, ((orthogonalization qrA qrB w).phiwa iw)ᴴ
        * (orthogonalization qrA qrB w).phiwa iw = 1)
    ∧ ∀ phib', (orthogonalization qrA qrB w).phiwb = some phib' →
        ∀ iw, (phib' iw)ᴴ * phib' iw = 1 := by
  obtain ⟨pa, pb, wt, ov, ld, dr, ds⟩ := w
  cases pb with
  | none =>
      refine ⟨fun iw => ?_, fun phib' h => ?_⟩
      · exact (hA iw).2.1
      · exact absurd h (by simp [orthogonalization])
  | some phib =>
      refine ⟨fun iw => ?_, fun phib' h => ?_⟩
      · exact (hA iw).2.1
      · have hphib' : phib' = fun iw => (qr_ortho qrB (phib iw)).1 := by
          have h' := h
          simp only [orthogonalization] at h'
          exact (Option.some_injective _ h').symm
        subst hphib'
        intro iw
        exact (hB phib rfl iw).2.1

/-- A trivial QR routine satisfying the contract on matrices that already
have orthonormal columns: return the matrix itself and R = identity. -/
def qrW : Matrix (Fin 1) (Fin 1) ℂ → Matrix (Fin 1) (Fin 1) ℂ × Matrix (Fin 1) (Fin 1) ℂ :=
  fun A => (A, 1)

/-- A concrete one-walker, one-component ensemble. -/
noncomputable def walkerSet1 : WalkerSet 1 1 1 1 :=
  { phiwa := fun _ => 1
    phiwb := none
    weights := fun _ => 1
    ovlp := fun _ => 1
    log_detR := fun _ => 0
    detR := fun _ => 1
    detR_shift := fun _ => 0 }

/-- Witness for C2 on the concrete ensemble. -/
theorem orthogonalization_orthonormal_columns_witness :
    (∀ iw, ((orthogonalization qrW qrW walkerSet1).phiwa iw)ᴴ
        * (orthogonalization qrW qrW walkerSet1).phiwa iw = 1)
    ∧ ∀ phib', (orthogonalization qrW qrW walkerSet1).phiwb = some phib' →
        ∀ iw, (phib' iw)ᴴ * phib' iw = 1 :=
  orthogonalization_orthonormal_columns qrW qrW walkerSet1
    (fun iw => by
      unfold QRfact qrW walkerSet1
      refine ⟨by simp, by simp, ?_⟩
      intro i j h
      have hi := i.2
      have hj := j.2
      omega)
    (fun phib h => by simp [walkerSet1] at h)

/-- The walker-construction default for the log-determinant shift.

Modelled from the spec: the walker construction (`generic_walkers`, not part
of the propagation core source) is described as creating walkers as copies
of the trial state with fresh bookkeeping; the spec's description of
`orthogonalization` ("record the log of the diagonal magnitudes into the
walker's cumulative log-determinant tracker") implies a zero `detR_shift`
baseline. -/
def detR_shift_init : ℝ := 0

/-- C3: each `orthogonalization()` call adds `log_det` — the sum of the logs
of the magnitudes of the R-factor diagonal entries (over the spin components
present) — to the walker's cumulative log-determinant tracker, and divides
the walker's stored overlap by `exp(log_det)`, the exponentiated same
factor (with the spec-modelled zero `detR_shift`). -/
theorem orthogonalization_logdet_overlap {nw m ka kb : ℕ}
    (qrA : Matrix (Fin m) (Fin ka) ℂ → Matrix (Fin m) (Fin ka) ℂ × Matrix (Fin ka) (Fin ka) ℂ)
    (qrB : Matrix (Fin m) (Fin kb) ℂ → Matrix (Fin m) (Fin kb) ℂ × Matrix (Fin kb) (Fin kb) ℂ)
    (w : WalkerSet nw m ka kb) (iw : Fin nw)
    (hshift : w.detR_shift iw = detR_shift_init) :
    (orthogonalization qrA qrB w).log_detR iw
        = w.log_detR iw + walkerLogDet qrA qrB w iw
    ∧ (orthogonalization qrA qrB w).ovlp iw
        = w.ovlp iw / ((Real.exp (walkerLogDet qrA qrB w iw) : ℝ) : ℂ) := by
  obtain ⟨pa, pb, wt, ov, ld, dr, ds⟩ := w
  have hds : ds iw = 0 := hshift
  cases pb with
  | none =>
      constructor
      · simp [orthogonalization, walkerLogDet, hds, Real.log_exp]
      · simp [orthogonalization, walkerLogDet, hds]
  | some phib =>
      constructor
      · simp [orthogonalization, walkerLogDet, hds, Real.log_exp]
      · simp [orthogonalization, walkerLogDet, hds]

/-- Witness for C3 on the concrete ensemble. -/
theorem orthogonalization_logdet_overlap_witness :
    (orthogonalization qrW qrW walkerSet1).log_detR 0
        = walkerSet1.log_detR 0 + walkerLogDet qrW qrW walkerSet1 0
    ∧ (orthogonalization qrW qrW walkerSet1).ovlp 0
        = walkerSet1.ovlp 0 / ((Real.exp (walkerLogDet qrW qrW walkerSet1 0) : ℝ) : ℂ) :=
  orthogonalization_logdet_overlap qrW qrW walkerSet1 0 rfl

/-! ### C4: the second consecutive orthogonalization call -/

/-- An upper-triangular complex matrix with orthonormal columns is diagonal
and its diagonal entries have magnitude one. -/
lemma triangular_orthonormal_diagonal {k : ℕ} (R : Matrix (Fin k) (Fin k) ℂ)
    (htri : ∀ i j : Fin k, (j : ℕ) < (i : ℕ) → R i j = 0)
    (horth : Rᴴ * R = 1) :
    (∀ i j : Fin k, i ≠ j → R i j = 0) ∧ ∀ j, Complex.abs (R j j) = 1 := by
  have main : ∀ n : ℕ, ∀ j : Fin k, (j : ℕ) = n →
      (∀ i, i ≠ j → R i j = 0) ∧ Complex.abs (R j j) = 1 := by
    intro n
    induction n using Nat.strong_induction_on with
    | _ n ih =>
        intro j hj
        have hcol : ∀ i, i ≠ j → R i j = 0 := by
          intro i hij
          have hvne : (i : ℕ) ≠ (j : ℕ) := fun h => hij (Fin.ext h)
          rcases lt_or_gt_of_ne hvne with hlt | hgt
          · -- `i` above the diagonal entry: use orthogonality to column `i`
            have hprev := ih (i : ℕ) (by omega) i rfl
            have hRii : R i i ≠ 0 := by
              intro h0
              have := hprev.2
              rw [h0] at this
              simp at this
            have hRR : (Rᴴ * R) i j = 0 := by
              rw [horth]
              exact Matrix.one_apply_ne hij
            rw [Matrix.mul_apply] at hRR
            have hsum : ∑ l, (Rᴴ) i l * R l j = star (R i i) * R i j := by
              refine Finset.sum_eq_single i (fun l _ hl => ?_) (by simp)
              rw [Matrix.conjTranspose_apply, hprev.1 l hl, star_zero, zero_mul]
            rw [hsum] at hRR
            rcases mul_eq_zero.mp hRR with hcase | hcase
            · exact absurd (star_eq_zero.mp hcase) hRii
            · exact hcase
          · exact htri i j hgt
        have hdiag1 : (Rᴴ * R) j j = 1 := by
          rw [horth]
          exact Matrix.one_apply_eq j
        rw [Matrix.mul_apply] at hdiag1
        have hsum : ∑ l, (Rᴴ) j l * R l j = star (R j j) * R j j := by
          refine Finset.sum_eq_single j (fun l _ hl => ?_) (by simp)
          rw [hcol l hl, mul_zero]
        rw [hsum] at hdiag1
        have hnormSq : (Complex.normSq (R j j) : ℂ) = 1 := by
          rw [Complex.star_def, ← Complex.normSq_eq_conj_mul_self] at hdiag1
          exact hdiag1
        have hsq : Complex.abs (R j j) ^ 2 = 1 := by
          rw [Complex.sq_abs]
          exact_mod_cast hnormSq
        have hfac : (Complex.abs (R j j) - 1) * (Complex.abs (R j j) + 1) = 0 := by
          ring_nf
          nlinarith [hsq]
        rcases mul_eq_zero.mp hfac with hcase | hcase
        · exact ⟨hcol, by linarith [sub_eq_zero.mp hcase]⟩
        · have := Complex.abs.nonneg (R j j)
          linarith
  exact ⟨fun i j => (main (j : ℕ) j rfl).1 i, fun j => (main (j : ℕ) j rfl).2⟩

/-- A contract-satisfying QR of a matrix that already has orthonormal
columns contributes zero `log_det`, and its R factor is diagonal with
unit-magnitude diagonal. -/
lemma qr_of_orthonormal {m k : ℕ}
    (qr : Matrix (Fin m) (Fin k) ℂ → Matrix (Fin m) (Fin k) ℂ × Matrix (Fin k) (Fin k) ℂ)
    (Q : Matrix (Fin m) (Fin k) ℂ) (hQ : Qᴴ * Q = 1) (hfact : QRfact Q (qr Q)) :
    (qr_ortho qr Q).2 = 0 ∧ (∀ i j : Fin k, i ≠ j → (qr Q).2 i j = 0)
      ∧ ∀ j, Complex.abs ((qr Q).2 j j) = 1 := by
  have h := hfact
  unfold QRfact at h
  obtain ⟨hQR, hQ2, htri⟩ := h
  have hR : ((qr Q).2)ᴴ * (qr Q).2 = 1 := by
    calc ((qr Q).2)ᴴ * (qr Q).2
        = ((qr Q).2)ᴴ * (((qr Q).1)ᴴ * (qr Q).1) * (qr Q).2 := by
          rw [hQ2, Matrix.mul_one]
      _ = ((qr Q).1 * (qr Q).2)ᴴ * ((qr Q).1 * (qr Q).2) := by
          rw [Matrix.conjTranspose_mul]
          simp only [Matrix.mul_assoc]
      _ = Qᴴ * Q := by rw [← hQR]
      _ = 1 := hQ
  obtain ⟨hoff, hdiag⟩ := triangular_orthonormal_diagonal (qr Q).2 htri hR
  refine ⟨?_, hoff, hdiag⟩
  show (∑ i, Real.log (Complex.abs ((qr Q).2 i i))) = 0
  refine Finset.sum_eq_zero fun i _ => ?_
  rw [hdiag i, Real.log_one]

/-- Unfolding equation for `orthogonalization` on one-component ensembles. -/
lemma orthogonalization_none_eq {nw m ka kb : ℕ}
    (qrA : Matrix (Fin m) (Fin ka) ℂ → Matrix (Fin m) (Fin ka) ℂ × Matrix (Fin ka) (Fin ka) ℂ)
    (qrB : Matrix (Fin m) (Fin kb) ℂ → Matrix (Fin m) (Fin kb) ℂ × Matrix (Fin kb) (Fin kb) ℂ)
    (pa : Fin nw → Matrix (Fin m) (Fin ka) ℂ) (wt ov : Fin nw → ℂ)
    (ld dr ds : Fin nw → ℝ) :
    orthogonalization qrA qrB (⟨pa, none, wt, ov, ld, dr, ds⟩ : WalkerSet nw m ka kb) =
      ⟨fun iw => (qr_ortho qrA (pa iw)).1, none, wt,
       fun iw => ov iw / ((Real.exp ((qr_ortho qrA (pa iw)).2 - ds iw) : ℝ) : ℂ),
       fun iw => ld iw + Real.log (Real.exp ((qr_ortho qrA (pa iw)).2 - ds iw)),
       fun iw => Real.exp ((qr_ortho qrA (pa iw)).2 - ds iw), ds⟩ := rfl

/-- Unfolding equation for `orthogonalization` on two-component ensembles. -/
lemma orthogonalization_some_eq {nw m ka kb : ℕ}
    (qrA : Matrix (Fin m) (Fin ka) ℂ → Matrix (Fin m) (Fin ka) ℂ × Matrix (Fin ka) (Fin ka) ℂ)
    (qrB : Matrix (Fin m) (Fin kb) ℂ → Matrix (Fin m) (Fin kb) ℂ × Matrix (Fin kb) (Fin kb) ℂ)
    (pa : Fin nw → Matrix (Fin m) (Fin ka) ℂ)
    (phib : Fin nw → Matrix (Fin m) (Fin kb) ℂ) (wt ov : Fin nw → ℂ)
    (ld dr ds : Fin nw → ℝ) :
    orthogonalization qrA qrB (⟨pa, some phib, wt, ov, ld, dr, ds⟩ : WalkerSet nw m ka kb) =
      ⟨fun iw => (qr_ortho qrA (pa iw)).1,
       some (fun iw => (qr_ortho qrB (phib iw)).1), wt,
       fun iw => ov iw /
         ((Real.exp ((qr_ortho qrA (pa iw)).2 + (qr_ortho qrB (phib iw)).2 - ds iw) : ℝ) : ℂ),
       fun iw => ld iw +
         Real.log (Real.exp ((qr_ortho qrA (pa iw)).2 + (qr_ortho qrB (phib iw)).2 - ds iw)),
       fun iw => Real.exp ((qr_ortho qrA (pa iw)).2 + (qr_ortho qrB (phib iw)).2 - ds iw),
       ds⟩ := rfl

/-- The 2×1 unit column `[0, 1]ᵀ` (zero pivot entry, unit subdiagonal). -/
def colE2 : Matrix (Fin 2) (Fin 1) ℂ := Matrix.of ![![0], ![1]]

/-- A QR routine reproducing LAPACK's Householder behaviour on a 2×1 unit
column whose leading entry is zero: `xLARFG` sees pivot `alpha = 0` with
nonzero subdiagonal norm and returns `beta = -SIGN(norm, 0) = -norm`, so
numpy's `qr([[0.],[1.]])` is `(Q = [[0.],[-1.]], R = [[-1.]])` and applying
`qr` again to `[[0.],[-1.]]` gives `(Q = [[0.],[1.]], R = [[-1.]])`: each
call flips the column's sign.  On unit columns, `A ↦ (-A, [[-1]])`
satisfies the QR contract. -/
def qrFlip : Matrix (Fin 2) (Fin 1) ℂ → Matrix (Fin 2) (Fin 1) ℂ × Matrix (Fin 1) (Fin 1) ℂ :=
  fun A => (-A, -1)

/-- A concrete one-walker, one-component ensemble whose coefficient column
is `[0, 1]ᵀ`. -/
noncomputable def walkerSet2 : WalkerSet 1 2 1 1 :=
  { phiwa := fun _ => colE2
    phiwb := none
    weights := fun _ => 1
    ovlp := fun _ => 1
    log_detR := fun _ => 0
    detR := fun _ => 1
    detR_shift := fun _ => 0 }

lemma colE2_orthonormal : colE2ᴴ * colE2 = 1 := by
  ext i j
  fin_cases i
  fin_cases j
  simp [colE2, Matrix.mul_apply, Fin.sum_univ_two, Matrix.one_apply]

/-- C4 counterexample: with a QR routine that satisfies the QR contract at
both calls and matches LAPACK's actual Householder behaviour at both
concrete inputs, the second of two consecutive `orthogonalization()` calls
changes the walker's coefficient matrix (flips the column's sign): the
claim that the coefficient matrices are left unchanged fails. -/
theorem orthogonalization_second_call_changes_matrix :
    QRfact (walkerSet2.phiwa 0) (qrFlip (walkerSet2.phiwa 0))
    ∧ QRfact ((orthogonalization qrFlip qrFlip walkerSet2).phiwa 0)
        (qrFlip ((orthogonalization qrFlip qrFlip walkerSet2).phiwa 0))
    ∧ (orthogonalization qrFlip qrFlip (orthogonalization qrFlip qrFlip walkerSet2)).phiwa 0
        ≠ (orthogonalization qrFlip qrFlip walkerSet2).phiwa 0 := by
  have e1 : (orthogonalization qrFlip qrFlip walkerSet2).phiwa 0 = -colE2 := rfl
  have e2 : (orthogonalization qrFlip qrFlip
      (orthogonalization qrFlip qrFlip walkerSet2)).phiwa 0 = -(-colE2) := rfl
  refine ⟨?_, ?_, ?_⟩
  · unfold QRfact qrFlip walkerSet2
    refine ⟨by simp, ?_, ?_⟩
    · simpa using colE2_orthonormal
    · intro i j h
      have hi := i.2
      have hj := j.2
      omega
  · rw [e1]
    unfold QRfact qrFlip
    refine ⟨by simp, ?_, ?_⟩
    · simpa using colE2_orthonormal
    · intro i j h
      have hi := i.2
      have hj := j.2
      omega
  · rw [e1, e2]
    intro h
    have h0 := congrFun (congrFun h 1) 0
    norm_num [Matrix.neg_apply, colE2] at h0

/-- C4 (amended): invoking `orthogonalization()` twice consecutively with no
propagation step between (with the spec-modelled zero `detR_shift` and a
contract-satisfying QR routine) leaves walker weights, cumulative
log-determinants, and overlaps unchanged by the second call (zero additional
log-determinant correction); each coefficient matrix is unchanged up to a
right factor that is diagonal with unit-magnitude entries (the sign/phase
freedom of the QR factorization, which numpy does not fix). -/
theorem orthogonalization_second_call_invariants {nw m ka kb : ℕ}
    (qrA : Matrix (Fin m) (Fin ka) ℂ → Matrix (Fin m) (Fin ka) ℂ × Matrix (Fin ka) (Fin ka) ℂ)
    (qrB : Matrix (Fin m) (Fin kb) ℂ → Matrix (Fin m) (Fin kb) ℂ × Matrix (Fin kb) (Fin kb) ℂ)
    (w : WalkerSet nw m ka kb)
    (hA1 : ∀ iw, QRfact (w.phiwa iw) (qrA (w.phiwa iw)))
    (hB1 : ∀ phib, w.phiwb = some phib → ∀ iw, QRfact (phib iw) (qrB (phib iw)))
    (hA2 : ∀ iw, QRfact ((orthogonalization qrA qrB w).phiwa iw)
        (qrA ((orthogonalization qrA qrB w).phiwa iw)))
    (hB2 : ∀ phib, (orthogonalization qrA qrB w).phiwb = some phib →
        ∀ iw, QRfact (phib iw) (qrB (phib iw)))
    (hshift : ∀ iw, w.detR_shift iw = detR_shift_init) :
    (orthogonalization qrA qrB (orthogonalization qrA qrB w)).weights
        = (orthogonalization qrA qrB w).weights
    ∧ (orthogonalization qrA qrB (orthogonalization qrA qrB w)).log_detR
        = (orthogonalization qrA qrB w).log_detR
    ∧ (orthogonalization qrA qrB (orthogonalization qrA qrB w)).ovlp
        = (orthogonalization qrA qrB w).ovlp
    ∧ (∀ iw, ∃ D : Matrix (Fin ka) (Fin ka) ℂ,
        (∀ i j, i ≠ j → D i j = 0) ∧ (∀ i, Complex.abs (D i i) = 1) ∧
        (orthogonalization qrA qrB w).phiwa iw
          = (orthogonalization qrA qrB (orthogonalization qrA qrB w)).phiwa iw * D)
    ∧ (∀ phib1 phib2, (orthogonalization qrA qrB w).phiwb = some phib1 →
        (orthogonalization qrA qrB (orthogonalization qrA qrB w)).phiwb = some phib2 →
        ∀ iw, ∃ D : Matrix (Fin kb) (Fin kb) ℂ,
          (∀ i j, i ≠ j → D i j = 0) ∧ (∀ i, Complex.abs (D i i) = 1) ∧
          phib1 iw = phib2 iw * D) := by
  obtain ⟨pa, pb, wt, ov, ld, dr, ds⟩ := w
  have hds : ∀ iw, ds iw = 0 := fun iw => hshift iw
  cases pb with
  | none =>
      simp only [orthogonalization_none_eq] at hA2 hB2 ⊢
      have hQ1 : ∀ iw, ((qr_ortho qrA (pa iw)).1)ᴴ * (qr_ortho qrA (pa iw)).1 = 1 :=
        fun iw => (hA1 iw).2.1
      have hzero : ∀ iw, (qr_ortho qrA ((qr_ortho qrA (pa iw)).1)).2 = 0
          ∧ (∀ i j, i ≠ j → (qrA ((qr_ortho qrA (pa iw)).1)).2 i j = 0)
          ∧ ∀ i, Complex.abs ((qrA ((qr_ortho qrA (pa iw)).1)).2 i i) = 1 :=
        fun iw => qr_of_orthonormal qrA ((qr_ortho qrA (pa iw)).1) (hQ1 iw) (hA2 iw)
      refine ⟨trivial, ?_, ?_, ?_, ?_⟩
      · funext iw
        rw [(hzero iw).1, hds iw]
        simp
      · funext iw
        rw [(hzero iw).1, hds iw]
        simp
      · intro iw
        exact ⟨(qrA ((qr_ortho qrA (pa iw)).1)).2, (hzero iw).2.1, (hzero iw).2.2,
          (hA2 iw).1⟩
      · intro phib1 phib2 h1 h2
        simp at h1
  | some phib =>
      simp only [orthogonalization_some_eq] at hA2 hB2 ⊢
      have hQ1a : ∀ iw, ((qr_ortho qrA (pa iw)).1)ᴴ * (qr_ortho qrA (pa iw)).1 = 1 :=
        fun iw => (hA1 iw).2.1
      have hQ1b : ∀ iw, ((qr_ortho qrB (phib iw)).1)ᴴ * (qr_ortho qrB (phib iw)).1 = 1 :=
        fun iw => (hB1 phib rfl iw).2.1
      have hzeroA : ∀ iw, (qr_ortho qrA ((qr_ortho qrA (pa iw)).1)).2 = 0
          ∧ (∀ i j, i ≠ j → (qrA ((qr_ortho qrA (pa iw)).1)).2 i j = 0)
          ∧ ∀ i, Complex.abs ((qrA ((qr_ortho qrA (pa iw)).1)).2 i i) = 1 :=
        fun iw => qr_of_orthonormal qrA ((qr_ortho qrA (pa iw)).1) (hQ1a iw) (hA2 iw)
      have hzeroB : ∀ iw, (qr_ortho qrB ((qr_ortho qrB (phib iw)).1)).2 = 0
          ∧ (∀ i j, i ≠ j → (qrB ((qr_ortho qrB (phib iw)).1)).2 i j = 0)
          ∧ ∀ i, Complex.abs ((qrB ((qr_ortho qrB (phib iw)).1)).2 i i) = 1 :=
        fun iw => qr_of_orthonormal qrB ((qr_ortho qrB (phib iw)).1) (hQ1b iw)
          (hB2 (fun iw => (qr_ortho qrB (phib iw)).1) rfl iw)
      refine ⟨trivial, ?_, ?_, ?_, ?_⟩
      · funext iw
        rw [(hzeroA iw).1, (hzeroB iw).1, hds iw]
        simp
      · funext iw
        rw [(hzeroA iw).1, (hzeroB iw).1, hds iw]
        simp
      · intro iw
        exact ⟨(qrA ((qr_ortho qrA (pa iw)).1)).2, (hzeroA iw).2.1, (hzeroA iw).2.2,
          (hA2 iw).1⟩
      · intro phib1 phib2 h1 h2
        have hb1 : phib1 = fun iw => (qr_ortho qrB (phib iw)).1 := (Option.some.inj h1).symm
        have hb2 : phib2 = fun iw => (qr_ortho qrB ((qr_ortho qrB (phib iw)).1)).1 :=
          (Option.some.inj h2).symm
        subst hb1
        subst hb2
        intro iw
        exact ⟨(qrB ((qr_ortho qrB (phib iw)).1)).2, (hzeroB iw).2.1, (hzeroB iw).2.2,
          (hB2 (fun iw => (qr_ortho qrB (phib iw)).1) rfl iw).1⟩

/-- Witness for the amended C4 on the concrete ensemble. -/
theorem orthogonalization_second_call_invariants_witness :
    (orthogonalization qrW qrW (orthogonalization qrW qrW walkerSet1)).weights
        = (orthogonalization qrW qrW walkerSet1).weights
    ∧ (orthogonalization qrW qrW (orthogonalization qrW qrW walkerSet1)).log_detR
        = (orthogonalization qrW qrW walkerSet1).log_detR
    ∧ (orthogonalization qrW qrW (orthogonalization qrW qrW walkerSet1)).ovlp
        = (orthogonalization qrW qrW walkerSet1).ovlp
    ∧ (∀ iw, ∃ D : Matrix (Fin 1) (Fin 1) ℂ,
        (∀ i j, i ≠ j → D i j = 0) ∧ (∀ i, Complex.abs (D i i) = 1) ∧
        (orthogonalization qrW qrW walkerSet1).phiwa iw
          = (orthogonalization qrW qrW (orthogonalization qrW qrW walkerSet1)).phiwa iw * D)
    ∧ (∀ phib1 phib2, (orthogonalization qrW qrW walkerSet1).phiwb = some phib1 →
        (orthogonalization qrW qrW (orthogonalization qrW qrW walkerSet1)).phiwb = some phib2 →
        ∀ iw, ∃ D : Matrix (Fin 1) (Fin 1) ℂ,
          (∀ i j, i ≠ j → D i j = 0) ∧ (∀ i, Complex.abs (D i i) = 1) ∧
          phib1 iw = phib2 iw * D) :=
  orthogonalization_second_call_invariants qrW qrW walkerSet1
    (fun iw => by
      unfold QRfact qrW walkerSet1
      refine ⟨by simp, by simp, ?_⟩
      intro i j h
      have hi := i.2
      have hj := j.2
      omega)
    (fun phib h => by simp [walkerSet1] at h)
    (fun iw => by
      have e1 : (orthogonalization qrW qrW walkerSet1).phiwa iw = 1 := rfl
      rw [e1]
      unfold QRfact qrW
      refine ⟨by simp, by simp, ?_⟩
      intro i j h
      have hi := i.2
      have hj := j.2
      omega)
    (fun phib h => by
      have hnone : (orthogonalization qrW qrW walkerSet1).phiwb = none := rfl
      rw [hnone] at h
      simp at h)
    (fun iw => rfl)

/-! ## Trotter propagation: `AFQMC.propagation`
(src/openms/qmc/afqmc.py, lines 145-204)

The scalar type is a generic field `K` (instantiated with complex numbers in
the code); the externally computed constants `i·sqrt(dt)` (the coefficient
of the two-body exponent), `sqrt(dt)` and the mean-field shift are passed in
as values, exactly as the code receives `self.dt`, `1j` and
`self.mf_shift`. -/

/-- Translation of `AFQMC.propagation_onebody(phi_w)`:
`einsum('pq, zqr->zpr', exp_h1e, phi_w)`. -/
def propagation_onebody {K : Type} [Field K] {n p nw : ℕ}
    (exp_h1e : Matrix (Fin n) (Fin n) K)
    (phiw : Fin nw → Matrix (Fin n) (Fin p) K) : Fin nw → Matrix (Fin n) (Fin p) K :=
  fun z => exp_h1e * phiw z

/-- The two-body operator power
`1j*sqrt(dt) * einsum('zn,npq->zpq', xshift, ltensor)` for one walker;
`isqrtdt` stands for the precomputed scalar `1j*sqrt(dt)`. -/
def twoBodyOpPower {K : Type} [Field K] {n nf : ℕ} (isqrtdt : K)
    (ltensor : Fin nf → Matrix (Fin n) (Fin n) K)
    (xshift : Fin nf → K) : Matrix (Fin n) (Fin n) K :=
  isqrtdt • ∑ a, xshift a • ltensor a

/-- The truncated-power-series loop of `AFQMC.propagation`:
`temp = phi.copy(); for i in range(taylor_order): temp = op*temp/(i+1);
phi += temp`. -/
def taylorExpand {K : Type} [Field K] {n p : ℕ} (taylor_order : ℕ)
    (op : Matrix (Fin n) (Fin n) K)
    (phi0 : Matrix (Fin n) (Fin p) K) : Matrix (Fin n) (Fin p) K :=
  ((List.range taylor_order).foldl
    (fun acc i =>
      let t := (((i : K) + 1)⁻¹) • (op * acc.2)
      (acc.1 + t, t))
    (phi0, phi0)).1

/-- Translation of `AFQMC.propagation(walkers, xbar, ltensor)`: half-step one-body
propagation, two-body stochastic step as a truncated power series, another
half-step one-body propagation; returns the new walker coefficients together
with the force-bias (`cfb`) and mean-field (`cmf`) weight-update factors. -/
def propagation {K : Type} [Field K] {n p nf nw : ℕ}
    (isqrtdt sqrtdt : K) (taylor_order : ℕ)
    (exp_h1e : Matrix (Fin n) (Fin n) K)
    (ltensor : Fin nf → Matrix (Fin n) (Fin n) K)
    (mf_shift : Fin nf → K)
    (xi xbar : Fin nw → Fin nf → K)
    (phiw : Fin nw → Matrix (Fin n) (Fin p) K) :
    (Fin nw → Matrix (Fin n) (Fin p) K) × (Fin nw → K) × (Fin nw → K) :=
  let phiw1 := propagation_onebody exp_h1e phiw
  let xshift := fun z a => xi z a - xbar z a
  let phiw2 := fun z =>
    taylorExpand taylor_order (twoBodyOpPower isqrtdt ltensor (xshift z)) (phiw1 z)
  let phiw3 := propagation_onebody exp_h1e phiw2
  let cfb := fun z => (∑ a, xi z a * xbar z a) - (1 / 2) * ∑ a, xbar z a * xbar z a
  let cmf := fun z => -sqrtdt * ∑ a, xshift z a * mf_shift a
  (phiw3, cfb, cmf)

/-- C5: with `taylor_order = 0` the two-body stochastic part of propagation
is the identity on the walker coefficient matrices: for every walker state
and every auxiliary-field draw, the coefficients produced by `propagation`
equal those produced by the two half-step one-body exponentials alone —
exactly, not merely approximately. -/
theorem propagation_taylor_zero_is_onebody {K : Type} [Field K] {n p nf nw : ℕ}
    (isqrtdt sqrtdt : K)
    (exp_h1e : Matrix (Fin n) (Fin n) K)
    (ltensor : Fin nf → Matrix (Fin n) (Fin n) K)
    (mf_shift : Fin nf → K)
    (xi xbar : Fin nw → Fin nf → K)
    (phiw : Fin nw → Matrix (Fin n) (Fin p) K) :
    (propagation isqrtdt sqrtdt 0 exp_h1e ltensor mf_shift xi xbar phiw).1
      = propagation_onebody exp_h1e (propagation_onebody exp_h1e phiw) := by
  funext z
  rfl

/-! ## Driver loop phase ordering: `QMCbase.kernel`
(src/openms/qmc/qmc.py, lines 978-1057)

The body of each driver-loop iteration is translated into the ordered list
of phases it executes: a conditional re-orthogonalization (on a
`renorm_freq` boundary), walker propagation, weight control, property
accumulation, and a conditional reduced-energy emission (on a
`property_calc_freq` boundary). -/

/-- One phase of a driver-loop iteration. -/
inductive Phase where
  | ortho
  | propagate
  | popControl
  | accumulate
  | emit
deriving DecidableEq

/-- Frequencies and step count of the driver loop. -/
structure LoopCfg where
  renorm_freq : ℕ
  property_calc_freq : ℕ
  nsteps : ℕ

/-- The ordered phases of step `step` of `QMCbase.kernel`, as executed by
the loop body. -/
def stepPhases (cfg : LoopCfg) (step : ℕ) : List Phase :=
  (if (step + 1) % cfg.renorm_freq = 0 then [Phase.ortho] else [])
    ++ [Phase.propagate, Phase.popControl, Phase.accumulate]
    ++ (if (step + 1) % cfg.property_calc_freq = 0 then [Phase.emit] else [])

/-- The full (step, phase) event trace of `for step in range(nsteps)`. -/
def runEvents (cfg : LoopCfg) : List (ℕ × Phase) :=
  (List.range cfg.nsteps).flatMap fun s => (stepPhases cfg s).map (fun ph => (s, ph))

/-- C6: in every driver-loop iteration the phases run in the fixed order:
conditional re-orthogonalization (exactly on `(step+1) % renorm_freq = 0`),
then propagation, then population control, then property accumulation, then
(exactly on `(step+1) % property_calc_freq = 0`) the reduced energy
emission.  In the whole-run event trace the propagate/popControl events
alternate step by step, so propagation of the ensemble completes before that
step's weight control, and weight control completes before the next step's
propagation. -/
theorem kernel_phase_order (cfg : LoopCfg) :
    ((runEvents cfg).filter
        (fun e => e.2 == Phase.propagate || e.2 == Phase.popControl)
      = (List.range cfg.nsteps).flatMap fun s =>
          [(s, Phase.propagate), (s, Phase.popControl)])
    ∧ ((runEvents cfg).filter
        (fun e => e.2 == Phase.ortho || e.2 == Phase.propagate)
      = (List.range cfg.nsteps).flatMap fun s =>
          (if (s + 1) % cfg.renorm_freq = 0 then [(s, Phase.ortho)] else [])
            ++ [(s, Phase.propagate)])
    ∧ ((runEvents cfg).filter
        (fun e => e.2 == Phase.popControl || e.2 == Phase.accumulate)
      = (List.range cfg.nsteps).flatMap fun s =>
          [(s, Phase.popControl), (s, Phase.accumulate)])
    ∧ ((runEvents cfg).filter
        (fun e => e.2 == Phase.accumulate || e.2 == Phase.emit)
      = (List.range cfg.nsteps).flatMap fun s =>
          (s, Phase.accumulate) ::
            (if (s + 1) % cfg.property_calc_freq = 0 then [(s, Phase.emit)] else [])) := by
  refine ⟨?_, ?_, ?_, ?_⟩ <;>
  · rw [runEvents, List.filter_flatMap]
    refine congrArg _ (funext fun s => ?_)
    rw [List.filter_map]
    by_cases h1 : (s + 1) % cfg.renorm_freq = 0 <;>
      by_cases h2 : (s + 1) % cfg.property_calc_freq = 0 <;>
        simp [stepPhases, h1, h2]

/-! ## Driver loop output: fixed step count and determinism given the seed
(src/openms/qmc/qmc.py, lines 301 and 926-1073)

`QMCbase.kernel` is abstracted over the component operations (which are
modelled elsewhere in this file); the point here is its control flow: after
`backend.random.seed(random_seed)` every auxiliary-field draw comes
deterministically from the seeded stream (`numpy`'s documented contract,
modelled by a function from seeds to draw streams), the loop runs
`for step in range(nsteps)` with `nsteps = int(total_time / dt)` and no
adaptive or convergence-based exit, and a `(imaginary time, energy)` pair is
appended exactly on `property_calc_freq` boundaries. -/

/-- Time-grid configuration of the driver loop. -/
structure QmcCfg where
  dt : ℚ
  total_time : ℚ
  renorm_freq : ℕ
  property_calc_freq : ℕ

/-- Source `self.nsteps = int(total_time / dt)` (truncating division; the
configuration values are positive in every run). -/
def nstepsOf (cfg : QmcCfg) : ℕ := (⌊cfg.total_time / cfg.dt⌋).toNat

/-- The running accumulator of `kernel`: the mutable simulation state plus
the `time_list` and `energy_list` output lists. -/
structure KernelAcc (S E : Type) where
  state : S
  timeList : List ℚ
  energyList : List E

/-- One iteration of the `kernel` loop body: conditional
re-orthogonalization, propagation with this step's auxiliary-field draw,
weight control, property accumulation, and on a `property_calc_freq`
boundary the append of `(tt, energy)` to the output lists. -/
def kernelStep {S D E : Type} (cfg : QmcCfg) (orthoF : S → S)
    (propagateF : S → D → S) (weightControlF : S → ℕ → S)
    (stackF : S → ℕ → S) (energyF : S → E) (draws : ℕ → D)
    (acc : KernelAcc S E) (step : ℕ) : KernelAcc S E :=
  let s0 := if (step + 1) % cfg.renorm_freq = 0 then orthoF acc.state else acc.state
  let s1 := propagateF s0 (draws step)
  let s2 := weightControlF s1 step
  let s3 := stackF s2 step
  if (step + 1) % cfg.property_calc_freq = 0 then
    ⟨s3, acc.timeList ++ [cfg.dt * step], acc.energyList ++ [energyF s3]⟩
  else
    ⟨s3, acc.timeList, acc.energyList⟩

/-- Translation of `QMCbase.kernel()`: seed-deterministic run over
`for step in range(nsteps)`. -/
def kernelRun {S D E : Type} (cfg : QmcCfg) (orthoF : S → S)
    (propagateF : S → D → S) (weightControlF : S → ℕ → S)
    (stackF : S → ℕ → S) (energyF : S → E) (draws : ℕ → D)
    (init : S) : KernelAcc S E :=
  (List.range (nstepsOf cfg)).foldl
    (kernelStep cfg orthoF propagateF weightControlF stackF energyF draws)
    ⟨init, [], []⟩

lemma kernelRun_output_length_aux {S D E : Type} (cfg : QmcCfg) (orthoF : S → S)
    (propagateF : S → D → S) (weightControlF : S → ℕ → S)
    (stackF : S → ℕ → S) (energyF : S → E) (draws : ℕ → D) :
    ∀ (n : ℕ) (acc : KernelAcc S E),
      (((List.range n).foldl
          (kernelStep cfg orthoF propagateF weightControlF stackF energyF draws)
          acc).timeList.length = acc.timeList.length + n / cfg.property_calc_freq)
      ∧ (((List.range n).foldl
          (kernelStep cfg orthoF propagateF weightControlF stackF energyF draws)
          acc).energyList.length = acc.energyList.length + n / cfg.property_calc_freq) := by
  intro n
  induction n with
  | zero => intro acc; simp
  | succ n ih =>
      intro acc
      rw [List.range_succ, List.foldl_append]
      obtain ⟨iht, ihe⟩ := ih acc
      have hdiv : (n + 1) / cfg.property_calc_freq
          = n / cfg.property_calc_freq
            + if cfg.property_calc_freq ∣ (n + 1) then 1 else 0 :=
        Nat.succ_div n cfg.property_calc_freq
      by_cases hb : (n + 1) % cfg.property_calc_freq = 0
      · have hdvd : cfg.property_calc_freq ∣ (n + 1) :=
          Nat.dvd_iff_mod_eq_zero.mpr hb
        have hone : (if cfg.property_calc_freq ∣ n + 1 then 1 else 0) = 1 := if_pos hdvd
        rw [hone] at hdiv
        constructor
        · simp only [List.foldl_cons, List.foldl_nil, kernelStep, hb, if_pos, if_true]
          rw [List.length_append, iht]
          simp only [List.length_singleton]
          omega
        · simp only [List.foldl_cons, List.foldl_nil, kernelStep, hb, if_pos, if_true]
          rw [List.length_append, ihe]
          simp only [List.length_singleton]
          omega
      · have hndvd : ¬ cfg.property_calc_freq ∣ (n + 1) := fun hd =>
          hb (Nat.dvd_iff_mod_eq_zero.mp hd)
        have hone : (if cfg.property_calc_freq ∣ n + 1 then 1 else 0) = 0 := if_neg hndvd
        rw [hone] at hdiv
        constructor
        · simp only [List.foldl_cons, List.foldl_nil, kernelStep, hb, if_false,
            Bool.false_eq_true, ite_false]
          rw [iht]
          omega
        · simp only [List.foldl_cons, List.foldl_nil, kernelStep, hb, if_false,
            Bool.false_eq_true, ite_false]
          rw [ihe]
          omega

/-- C7: `kernel()` is deterministic given the seed: with the draw stream a
function of the seed, two executions with equal seeds produce identical
`(imaginary time, energy estimate)` output sequences; and the loop runs
exactly `nsteps = total_time / dt` iterations, emitting exactly
`nsteps / property_calc_freq` output pairs regardless of the stochastic
stream or state — no adaptive or convergence-based termination occurs. -/
theorem kernel_deterministic_fixed_steps {S D E : Type} (cfg : QmcCfg)
    (orthoF : S → S) (propagateF : S → D → S) (weightControlF : S → ℕ → S)
    (stackF : S → ℕ → S) (energyF : S → E) (rng : ℕ → ℕ → D) (init : S)
    (seed1 seed2 : ℕ) (hseed : seed1 = seed2) :
    kernelRun cfg orthoF propagateF weightControlF stackF energyF (rng seed1) init
      = kernelRun cfg orthoF propagateF weightControlF stackF energyF (rng seed2) init
    ∧ (kernelRun cfg orthoF propagateF weightControlF stackF energyF (rng seed1)
        init).timeList.length = nstepsOf cfg / cfg.property_calc_freq
    ∧ (kernelRun cfg orthoF propagateF weightControlF stackF energyF (rng seed1)
        init).energyList.length = nstepsOf cfg / cfg.property_calc_freq := by
  subst hseed
  obtain ⟨ht, he⟩ := kernelRun_output_length_aux cfg orthoF propagateF weightControlF
    stackF energyF (rng seed1) (nstepsOf cfg) ⟨init, [], []⟩
  exact ⟨rfl, by simpa using ht, by simpa using he⟩

/-- Witness for C7 with a concrete configuration (`dt = 1`, `total_time = 3`,
`property_calc_freq = 2`, so `nsteps = 3` and one output pair). -/
theorem kernel_deterministic_fixed_steps_witness :
    kernelRun ⟨1, 3, 5, 2⟩ (fun s : Unit => s) (fun s (_ : Unit) => s)
        (fun s _ => s) (fun s _ => s) (fun _ => (0 : ℕ)) (fun _ => ()) ()
      = kernelRun ⟨1, 3, 5, 2⟩ (fun s : Unit => s) (fun s (_ : Unit) => s)
        (fun s _ => s) (fun s _ => s) (fun _ => (0 : ℕ)) (fun _ => ()) ()
    ∧ (kernelRun ⟨1, 3, 5, 2⟩ (fun s : Unit => s) (fun s (_ : Unit) => s)
        (fun s _ => s) (fun s _ => s) (fun _ => (0 : ℕ)) (fun _ => ()) ()).timeList.length
      = nstepsOf ⟨1, 3, 5, 2⟩ / 2
    ∧ (kernelRun ⟨1, 3, 5, 2⟩ (fun s : Unit => s) (fun s (_ : Unit) => s)
        (fun s _ => s) (fun s _ => s) (fun _ => (0 : ℕ)) (fun _ => ()) ()).energyList.length
      = nstepsOf ⟨1, 3, 5, 2⟩ / 2 :=
  kernel_deterministic_fixed_steps ⟨1, 3, 5, 2⟩ (fun s => s) (fun s _ => s)
    (fun s _ => s) (fun s _ => s) (fun _ => (0 : ℕ)) (fun _ _ => ()) () 7 7 rfl

/-! ## Cholesky truncation at build time: `QMCbase.get_integrals`
(src/openms/qmc/qmc.py, lines 580-587) and `AFQMC.build_propagator`
(src/openms/qmc/afqmc.py, lines 130-143)

The SVD itself (`scipy.linalg.svd`) is external; the embedding receives the
singular decomposition `u, s` of the two-body tensor `eri_2d = u·diag(s)·uᵀ`
and performs the source's truncation `mask = s > self.chol_thresh;
ltensor = u[:, mask] * sqrt(s[mask])`.  Exact arithmetic avoids the square
roots by recording the retained spectrum; the tensor reproduced by the
retained factors (`ltensor.T @ ltensor`) is `u·diag(s·mask)·uᵀ`.  Neither
`get_integrals` nor `build_propagator` contains any validation of the
truncated decomposition or any `raise` on this path. -/

/-- Number of singular values kept by `mask = s > self.chol_thresh`. -/
def num_retained {N : ℕ} (thresh : ℚ) (s : Fin N → ℚ) : ℕ :=
  (Finset.univ.filter (fun i => thresh < s i)).card

/-- The retained spectrum: `s i` where `s i > thresh`, else dropped. -/
def retainedSpectrum {N : ℕ} (thresh : ℚ) (s : Fin N → ℚ) : Fin N → ℚ :=
  fun i => if thresh < s i then s i else 0

/-- The two-body tensor reproduced by the retained Cholesky factors. -/
def chol_reconstruction {N : ℕ} (u : Matrix (Fin N) (Fin N) ℚ) (thresh : ℚ)
    (s : Fin N → ℚ) : Matrix (Fin N) (Fin N) ℚ :=
  u * Matrix.diagonal (retainedSpectrum thresh s) * uᵀ

/-- The two-body part of `get_integrals` as translated from the source:
truncate the singular decomposition at `chol_thresh` and return.  The
`Except` return type records that this build path can signal errors only by
raising — and the translated code never does. -/
def get_integrals_chol {N : ℕ} (u : Matrix (Fin N) (Fin N) ℚ) (s : Fin N → ℚ)
    (thresh : ℚ) : Except String (ℕ × Matrix (Fin N) (Fin N) ℚ) :=
  Except.ok (num_retained thresh s, chol_reconstruction u thresh s)

/-- Frobenius norm squared. -/
def frobSq {N : ℕ} (M : Matrix (Fin N) (Fin N) ℚ) : ℚ := ∑ p, ∑ q, (M p q) ^ 2

/-- The failing input's left singular vectors: `u = I₄`. -/
def uBug : Matrix (Fin 4) (Fin 4) ℚ := 1

/-- The failing input's singular values: all `9/10`, i.e.
`eri_2d = (9/10)·I₄` (`norb = 2`). -/
def sBug : Fin 4 → ℚ := fun _ => 9 / 10

/-- C8 evaluation: on the concrete input `eri_2d = (9/10)·I₄` with
`chol_thresh = 1`, the truncation drops every field (`num_retained = 0`, a
rank-deficient decomposition of a nonzero tensor, with reproduction error
exceeding the threshold in Frobenius norm), yet the build path returns
`Except.ok` — no error is raised before the step loop; indeed the
translated build path returns `Except.ok` on every input. -/
theorem build_no_raise_on_rank_deficient_truncation :
    get_integrals_chol uBug sBug 1
      = Except.ok (num_retained 1 sBug, chol_reconstruction uBug 1 sBug)
    ∧ num_retained 1 sBug = 0
    ∧ frobSq (uBug * Matrix.diagonal sBug * uBugᵀ - chol_reconstruction uBug 1 sBug)
        > 1 ^ 2
    ∧ ∀ (N : ℕ) (u : Matrix (Fin N) (Fin N) ℚ) (s : Fin N → ℚ) (t : ℚ),
        ∃ x, get_integrals_chol u s t = Except.ok x := by
  have hmask : ∀ i : Fin 4, ¬ ((1 : ℚ) < sBug i) := by
    intro i
    norm_num [sBug]
  have hrs : retainedSpectrum 1 sBug = fun _ => 0 := by
    funext i
    exact if_neg (hmask i)
  have hrec : chol_reconstruction uBug 1 sBug = 0 := by
    unfold chol_reconstruction
    rw [hrs]
    simp
  refine ⟨rfl, ?_, ?_, fun N u s t => ⟨_, rfl⟩⟩
  · rw [num_retained, Finset.filter_false_of_mem (fun i _ => hmask i), Finset.card_empty]
  · rw [hrec, sub_zero]
    unfold uBug frobSq
    simp only [Matrix.one_mul, Matrix.transpose_one, Matrix.mul_one]
    rw [Fin.sum_univ_four]
    simp [Fin.sum_univ_four, Matrix.diagonal_apply, sBug]
    norm_num
